import Mathlib

/-!
Verification of the mention-matching engine of `mia_genius_scraper.py`.

Text is modelled as `List Char`.  Python builtins used by the program are
modelled explicitly: `str.lower` as an ASCII case map, `str.strip`,
`str.find`, `str.replace`, the whitespace-run collapsing substitution,
and `re.escape` / `re.search` for the restricted regex language actually
occurring in the program's data (word-boundary assertions and escaped or
plain literal characters).  Word characters are modelled as the ASCII
alphanumerics and underscore, matching the program's ASCII data.  Python
dicts are modelled as association lists with Python's insertion
semantics: the last assignment to a key wins and the first insertion
fixes the position.  The `pycountry` catalog is an external dependency,
so the index builder is parametrised by an arbitrary catalog value.
-/

set_option maxHeartbeats 1000000

namespace MiaScraper

/-- Text and tokens are lists of characters. -/
abbrev Str := List Char

/-- Whitespace characters recognised by Python's `str.strip` and the
whitespace regex class for the ASCII range. -/
def pyIsSpace (c : Char) : Bool :=
  c == ' ' || c == '\t' || c == '\n' || c == '\r' || c == '\x0b' || c == '\x0c'

/-- ASCII lowercase map, modelling `str.lower` on the program's data. -/
def lowerChar : Char → Char
  | 'A' => 'a' | 'B' => 'b' | 'C' => 'c' | 'D' => 'd' | 'E' => 'e' | 'F' => 'f'
  | 'G' => 'g' | 'H' => 'h' | 'I' => 'i' | 'J' => 'j' | 'K' => 'k' | 'L' => 'l'
  | 'M' => 'm' | 'N' => 'n' | 'O' => 'o' | 'P' => 'p' | 'Q' => 'q' | 'R' => 'r'
  | 'S' => 's' | 'T' => 't' | 'U' => 'u' | 'V' => 'v' | 'W' => 'w' | 'X' => 'x'
  | 'Y' => 'y' | 'Z' => 'z'
  | c => c

/-- Lowercasing a whole string (`str.lower`). -/
def lowerStr (s : Str) : Str := s.map lowerChar

/-- Word characters for the regex word-boundary assertion (ASCII model of
Python's word-character class). -/
def isWordChar (c : Char) : Bool := c.isAlphanum || c == '_'

/-- Whether the character at index `i` of `text` is a word character
(out-of-range positions count as non-word). -/
def isWordAt (text : Str) (i : Nat) : Bool :=
  match text[i]? with
  | some c => isWordChar c
  | none => false

/-- The regex word-boundary assertion holds at position `i`: exactly one
of the two neighbouring positions holds a word character. -/
def boundaryAt (text : Str) (i : Nat) : Bool :=
  (match i with
   | 0 => false
   | j + 1 => isWordAt text j) != isWordAt text i

/-- One item of the regex language used by the program: a word-boundary
assertion or a literal character. -/
inductive RTok where
  | wordB : RTok
  | lit : Char → RTok
deriving DecidableEq

/-- Characters escaped by `re.escape` (Python 3.7+ special set). -/
def reSpecial (c : Char) : Bool :=
  c == '(' || c == ')' || c == '[' || c == ']' || c == '\x7b' || c == '\x7d' ||
  c == '?' || c == '*' || c == '+' || c == '-' || c == '|' || c == '^' || c == '$' ||
  c == '\\' || c == '.' || c == '&' || c == '~' || c == '#' || c == ' ' ||
  c == '\t' || c == '\n' || c == '\r' || c == '\x0b' || c == '\x0c'

/-- Model of `re.escape`: put a backslash before each special character. -/
def pyEscape : Str → Str
  | [] => []
  | c :: r => if reSpecial c then '\\' :: c :: pyEscape r else c :: pyEscape r

/-- Parse a regex source string into a token list, interpreting the
constructs used in the program's patterns: a backslash followed by `b`
is a word boundary, a backslash followed by any other character is that
literal character, and any other character is itself a literal. -/
def parseRegex : Str → List RTok
  | [] => []
  | c :: r =>
    if c = '\\' then
      match r with
      | [] => []
      | d :: r' => (if d = 'b' then RTok.wordB else RTok.lit d) :: parseRegex r'
    else
      RTok.lit c :: parseRegex r

/-- Case-insensitive match of a single literal character at position `i`
(the program passes the ignore-case flag everywhere). -/
def litMatch (text : Str) (i : Nat) (c : Char) : Bool :=
  match text[i]? with
  | some d => lowerChar d == lowerChar c
  | none => false

/-- Run a token list against `text` starting at position `i`. -/
def rmatchAt (text : Str) : List RTok → Nat → Bool
  | [], _ => true
  | RTok.wordB :: ts, i => boundaryAt text i && rmatchAt text ts i
  | RTok.lit c :: ts, i => litMatch text i c && rmatchAt text ts (i + 1)

/-- Model of `re.search` with the ignore-case flag for the supported
token lists: some start position in `0..len` matches. -/
def regexSearchB (toks : List RTok) (text : Str) : Bool :=
  (List.range (text.length + 1)).any fun i => rmatchAt text toks i

/-- Source string of the regex built by `safe_word_regex`: a word
boundary, the escaped token, and a word boundary. -/
def safe_word_regex_src (token : Str) : Str :=
  '\\' :: 'b' :: (pyEscape token ++ ['\\', 'b'])

/-- Model of `safe_word_regex`: the compiled (parsed) word-boundary regex
for a plain token. -/
def safe_word_regex (token : Str) : List RTok :=
  parseRegex (safe_word_regex_src token)

/-- The word-boundary case-insensitive search used for all plain
tokens: `safe_word_regex(token).search(text)`. -/
def wordSearch (token text : Str) : Bool :=
  regexSearchB (safe_word_regex token) text

/-- Case-insensitive literal occurrence of `s` at position `i` of
`text`. -/
def litsMatchAt (text : Str) : Str → Nat → Bool
  | [], _ => true
  | c :: cs, i => litMatch text i c && litsMatchAt text cs (i + 1)

/-- Direct characterisation of a standalone-word occurrence: `t` occurs
case-insensitively at some position that is word-boundary delimited on
both sides. -/
def hasDelimitedOcc (t full : Str) : Bool :=
  (List.range (full.length + 1)).any fun i =>
    litsMatchAt full t i && (boundaryAt full i && boundaryAt full (i + t.length))

/-- Model of Python's left strip: drop leading whitespace. -/
def lstrip (s : Str) : Str := s.dropWhile pyIsSpace

/-- Model of Python's right strip: drop trailing whitespace. -/
def rstrip : Str → Str
  | [] => []
  | c :: r =>
    match rstrip r with
    | [] => if pyIsSpace c then [] else [c]
    | d :: t => c :: d :: t

/-- Model of `str.strip`: drop whitespace from both ends. -/
def pyStrip (s : Str) : Str := rstrip (lstrip s)

/-- Model of `str.replace` of a newline by a space. -/
def replaceNl (s : Str) : Str := s.map fun c => if c = '\n' then ' ' else c

/-- Model of the substitution collapsing every maximal whitespace run to
one space (structural one-character-lookahead formulation: the single
space of a run is emitted at the run's last whitespace character). -/
def collapseRuns : Str → Str
  | [] => []
  | [c] => if pyIsSpace c then [' '] else [c]
  | c :: d :: rest =>
    if pyIsSpace c then
      (if pyIsSpace d then collapseRuns (d :: rest)
       else ' ' :: collapseRuns (d :: rest))
    else c :: collapseRuns (d :: rest)

/-- Model of `str.find`: index of the first occurrence of `needle` in
`hay`, or `none`. -/
def pyFind (hay needle : Str) : Option Nat :=
  (List.range (hay.length + 1)).find? fun i => needle.isPrefixOf (hay.drop i)

/-- Embedding of `extract_snippet`: scan the terms in order, locate the
first case-insensitive occurrence in the lowercased text, slice the
window `max 0 (idx - window) .. min len (idx + len t + window)` out of
the original text, then strip, replace newlines and collapse whitespace
runs, exactly as the source does. -/
def extract_snippet (text : Str) (terms : List Str) (window : Nat) : Str :=
  match terms with
  | [] => []
  | t :: rest =>
    match pyFind (lowerStr text) (lowerStr t) with
    | some idx =>
      collapseRuns (replaceNl (pyStrip
        ((text.take (min text.length (idx + t.length + window))).drop (idx - window))))
    | none => extract_snippet text rest window

/-- Snippet extraction as worded by the specification: first term of the
list with a case-insensitive occurrence wins, a window of at most 80
characters before the occurrence and 80 after its end is cut out, then
newlines are replaced, whitespace runs are collapsed to single spaces
and the edges are trimmed; the empty string when no term occurs. -/
def extract_snippet_spec (text : Str) (terms : List Str) : Str :=
  match terms with
  | [] => []
  | t :: rest =>
    match pyFind (lowerStr text) (lowerStr t) with
    | some idx =>
      pyStrip (collapseRuns (replaceNl
        ((text.drop (idx - 80)).take (idx + t.length + 80 - (idx - 80)))))
    | none => extract_snippet_spec text rest

/-- Mention record types occurring in the program's output rows. -/
inductive RecType where
  | mention : RecType
  | language : RecType
  | sample : RecType
deriving DecidableEq

/-- One record emitted by `find_matches` for a country: the `type` and
`lyric` fields are always present, the `language` field only on
language records. -/
structure MRec where
  type : RecType
  lyric : Str
  language : Option Str
deriving DecidableEq

/-- One country entry of the index: display name plus the plain alias,
language and city token lists and the regex pattern source strings. -/
structure CountryInfo where
  name : Str
  aliases : List Str
  languages : List Str
  cities : List Str
  patterns : List Str
deriving DecidableEq

/-- A country index: association list from ISO3 code to entry (a Python
dict in the source, so unique keys in insertion order). -/
abbrev CIndex := List (Str × CountryInfo)

/-- Lookup in an association list (Python `d[k]` / `d.get(k)`). -/
def alookup {β : Type} : List (Str × β) → Str → Option β
  | [], _ => none
  | (k', v) :: rest, k => if k' = k then some v else alookup rest k

/-- Python dict assignment `d[k] = v`: replace the value in place if the
key exists, else append the binding. -/
def pyInsert {β : Type} : List (Str × β) → Str → β → List (Str × β)
  | [], k, v => [(k, v)]
  | (k', v') :: rest, k, v =>
    if k' = k then (k, v) :: rest else (k', v') :: pyInsert rest k v

/-- Python dict in-place value update `d[k] = f (d[k])` for a present
key; no effect when the key is absent. -/
def pyUpdate {β : Type} : List (Str × β) → Str → (β → β) → List (Str × β)
  | [], _, _ => []
  | (k', v) :: rest, k, f =>
    if k' = k then (k', f v) :: rest else (k', v) :: pyUpdate rest k f

/-- Build a Python dict from a literal pair sequence: later bindings of
the same key overwrite earlier ones in place. -/
def dictOfList {β : Type} (l : List (Str × β)) : List (Str × β) :=
  l.foldl (fun d p => pyInsert d p.1 p.2) []

/-- The dict invariant: keys are pairwise distinct. -/
abbrev keysNodup {β : Type} (d : List (Str × β)) : Prop :=
  (d.map Prod.fst).Nodup

/-- Lexicographic code-point string comparison, as used by Python's
`sorted` on strings. -/
def strLe : Str → Str → Bool
  | [], _ => true
  | _ :: _, [] => false
  | a :: as, b :: bs => if a < b then true else if b < a then false else strLe as bs

/-- Insert into a sorted list in front of the first element that is not
smaller (the stable insertion underlying insertion sort). -/
def orderedInsertBy {α : Type} (le : α → α → Bool) (a : α) : List α → List α
  | [] => [a]
  | b :: l => if le a b then a :: b :: l else b :: orderedInsertBy le a l

/-- Stable insertion sort, modelling Python's `sorted`. -/
def insertionSortBy {α : Type} (le : α → α → Bool) : List α → List α
  | [] => []
  | b :: l => orderedInsertBy le b (insertionSortBy le l)

/-- Model of `sorted(set(xs))` on strings: deduplicate, then sort. -/
def dedupSortStr (xs : List Str) : List Str :=
  insertionSortBy strLe xs.dedup

/-- The normalisation step of `build_country_index`: lowercase and
deduplicate the plain lists (sorted for determinism) and deduplicate
and sort the pattern list with case preserved. -/
def normalizeEntry (info : CountryInfo) : CountryInfo :=
  ⟨info.name,
   dedupSortStr (info.aliases.map lowerStr),
   dedupSortStr (info.languages.map lowerStr),
   dedupSortStr (info.cities.map lowerStr),
   insertionSortBy strLe info.patterns.dedup⟩

/-- One catalog record of the external `pycountry` dependency: an
optional ISO3 code, a name and an optional common name. -/
structure PycCountry where
  alpha_3 : Option Str
  name : Str
  common_name : Option Str

/-- Display name resolution `getattr(c, "common_name", None) or c.name`:
a present non-empty common name wins, otherwise the name. -/
def pycDisplayName (c : PycCountry) : Str :=
  match c.common_name with
  | some cn => if cn.isEmpty then c.name else cn
  | none => c.name

/-- One step of the seeding loop: record an entry with empty lists when
the catalog record has a truthy `alpha_3`, else skip it. -/
def seedStep (base : CIndex) (c : PycCountry) : CIndex :=
  match c.alpha_3 with
  | some a3 =>
    if a3.isEmpty then base
    else pyInsert base a3 ⟨pycDisplayName c, [], [], [], []⟩
  | none => base

/-- Embedding of `seed_countries_from_pycountry`: one entry with empty
lists per catalog record that has a truthy `alpha_3`. -/
def seed_countries_from_pycountry (catalog : List PycCountry) : CIndex :=
  catalog.foldl seedStep []

/-- The `EXTRA_ALIASES` dict literal exactly as written in the source,
pair by pair; note the two `SWZ` bindings. -/
def EXTRA_ALIASES_src : List (Str × List Str) :=
  [("MMR".toList, ["Burma".toList]),
   ("NLD".toList, ["Holland".toList, "The Netherlands".toList]),
   ("CIV".toList, ["Ivory Coast".toList, "Côte d’Ivoire".toList, "Cote d’Ivoire".toList]),
   ("SWZ".toList, ["Swaziland".toList]),
   ("TUR".toList, ["Turkey".toList, "Türkiye".toList]),
   ("COD".toList, ["Congo-Kinshasa".toList, "DRC".toList, "Democratic Republic of Congo".toList]),
   ("COG".toList, ["Congo-Brazzaville".toList, "Republic of Congo".toList]),
   ("RUS".toList, ["Russia".toList]),
   ("GBR".toList, ["UK".toList, "Britain".toList, "Great Britain".toList, "England".toList, "Scotland".toList, "Wales".toList]),
   ("IRN".toList, ["Persia".toList]),
   ("LAO".toList, ["Laos".toList]),
   ("PRK".toList, ["North Korea".toList, "DPRK".toList]),
   ("KOR".toList, ["South Korea".toList, "ROK".toList]),
   ("TZA".toList, ["Tanzania".toList]),
   ("USA".toList, ["U.S.".toList, "US".toList, "U.S.A.".toList, "America".toList]),
   ("PSE".toList, ["Palestine".toList, "State of Palestine".toList]),
   ("VAT".toList, ["Vatican".toList, "Holy See".toList]),
   ("CZE".toList, ["Czech Republic".toList, "Czechia".toList]),
   ("SWZ".toList, ["Eswatini".toList, "Swaziland".toList]),
   ("MKD".toList, ["Macedonia".toList, "North Macedonia".toList]),
   ("BRN".toList, ["Brunei Darussalam".toList, "Brunei".toList]),
   ("BOL".toList, ["Bolivia".toList]),
   ("MDA".toList, ["Moldova".toList, "Republic of Moldova".toList])]

/-- The effective `EXTRA_ALIASES` dict (Python dict-literal semantics
applied to the written pairs). -/
def EXTRA_ALIASES : List (Str × List Str) := dictOfList EXTRA_ALIASES_src

/-- One `EXTRA_ENRICHMENTS` value: the optional per-country language,
city, pattern and extra-alias lists. -/
structure Enrich where
  languages : Option (List Str)
  cities : Option (List Str)
  patterns : Option (List Str)
  aliases : Option (List Str)
deriving DecidableEq

/-- The `EXTRA_ENRICHMENTS` dict literal exactly as written in the
source (its keys are pairwise distinct). -/
def EXTRA_ENRICHMENTS_src : List (Str × Enrich) :=
  [("IND".toList,
    ⟨some ["tamil".toList, "hindi".toList, "urdu".toList, "punjabi".toList, "bengali".toList, "telugu".toList, "marathi".toList],
     some ["mumbai".toList, "bombay".toList, "delhi".toList, "new delhi".toList, "chennai".toList, "madras".toList, "hyderabad".toList, "kolkata".toList, "calcutta".toList, "bangalore".toList, "bengaluru".toList],
     none,
     some ["Bharat".toList, "Hindustan".toList]⟩),
   ("LKA".toList,
    ⟨some ["sinhala".toList, "tamil".toList],
     some ["colombo".toList, "kandy".toList, "jaffna".toList],
     none,
     some ["Ceylon".toList]⟩),
   ("JAM".toList,
    ⟨some ["patois".toList, "jamaican patois".toList],
     some ["kingston".toList, "montego bay".toList],
     none, none⟩),
   ("GBR".toList,
    ⟨some ["english".toList],
     some ["london".toList, "brixton".toList, "camden".toList, "hackney".toList, "ealing".toList],
     none, none⟩),
   ("USA".toList,
    ⟨some ["english".toList, "spanish".toList],
     some ["new york".toList, "nyc".toList, "los angeles".toList, "washington".toList, "washington dc".toList, "dc".toList, "d.c.".toList, "san francisco".toList, "sf".toList, "bay area".toList, "atlanta".toList],
     some ["\\bATL\\b".toList, "\\bL\\.A\\.\\b".toList, "\\bD\\.C\\.\\b".toList, "\\bNOLA\\b".toList, "\\bDMV\\b".toList, "\\bCHI\\b".toList, "\\bVEGAS\\b".toList],
     none⟩),
   ("BGD".toList,
    ⟨some ["bengali".toList, "bangla".toList],
     some ["dhaka".toList, "chittagong".toList],
     none, none⟩),
   ("PAK".toList,
    ⟨some ["urdu".toList, "punjabi".toList, "sindhi".toList],
     some ["karachi".toList, "lahore".toList, "islamabad".toList],
     none, none⟩),
   ("TTO".toList,
    ⟨some ["english".toList, "creole".toList],
     some ["port of spain".toList],
     none, none⟩),
   ("FRA".toList,
    ⟨some ["french".toList],
     some ["paris".toList, "marseille".toList],
     none, none⟩),
   ("CAN".toList,
    ⟨some ["english".toList, "french".toList],
     some ["toronto".toList, "montreal".toList],
     none, none⟩)]

/-- The effective `EXTRA_ENRICHMENTS` dict. -/
def EXTRA_ENRICHMENTS : List (Str × Enrich) := dictOfList EXTRA_ENRICHMENTS_src

/-- The `GLOBAL_LANGUAGE_HINTS` dict literal: language token to ISO3
code, in source order (its keys are pairwise distinct). -/
def GLOBAL_LANGUAGE_HINTS : List (Str × Str) :=
  [("tamil".toList, "IND".toList),
   ("patois".toList, "JAM".toList),
   ("jamaican patois".toList, "JAM".toList),
   ("sinhala".toList, "LKA".toList),
   ("bangla".toList, "BGD".toList),
   ("bengali".toList, "BGD".toList),
   ("urdu".toList, "PAK".toList),
   ("punjabi".toList, "IND".toList)]

/-- Extend an entry's alias list, as the alias-merge loop does. -/
def aliasExtend (als : List Str) (info : CountryInfo) : CountryInfo :=
  ⟨info.name, info.aliases ++ als, info.languages, info.cities, info.patterns⟩

/-- The alias-merge loop of `build_country_index`: extend the alias list
of every country mentioned in `EXTRA_ALIASES` that is present. -/
def merge_aliases (countries : CIndex) : CIndex :=
  EXTRA_ALIASES.foldl (fun cs p => pyUpdate cs p.1 (aliasExtend p.2)) countries

/-- Apply one enrichment record to one entry (each present key's list is
appended, as the source's extend loop does). -/
def applyEnrich (e : Enrich) (info : CountryInfo) : CountryInfo :=
  ⟨info.name,
   info.aliases ++ e.aliases.getD [],
   info.languages ++ e.languages.getD [],
   info.cities ++ e.cities.getD [],
   info.patterns ++ e.patterns.getD []⟩

/-- The enrichment-merge loop of `build_country_index`. -/
def merge_enrichments (countries : CIndex) : CIndex :=
  EXTRA_ENRICHMENTS.foldl (fun cs p => pyUpdate cs p.1 (applyEnrich p.2)) countries

/-- Embedding of `build_country_index`: seed, merge the alias table,
merge the enrichment table, then normalise every entry. -/
def build_country_index (catalog : List PycCountry) : CIndex :=
  (merge_enrichments (merge_aliases (seed_countries_from_pycountry catalog))).map
    fun e => (e.1, normalizeEntry e.2)

/-- The plain candidate term list of a country: display name, aliases,
cities, in that order. -/
def plain_terms (info : CountryInfo) : List Str :=
  info.name :: (info.aliases ++ info.cities)

/-- The combined text matched against: lyrics, a newline, then the
metadata text. -/
def fulltextOf (lyrics meta : Str) : Str := lyrics ++ '\n' :: meta

/-- Pass 1 of `find_matches`: one `mention` record when any non-empty
plain term has a standalone-word occurrence in the combined text; the
snippet scans the full plain-term list against the lyrics only. -/
def pass1 (lyrics full : Str) (info : CountryInfo) : List MRec :=
  if (plain_terms info).any (fun t => !t.isEmpty && wordSearch t full) then
    [⟨RecType.mention, extract_snippet lyrics (plain_terms info) 80, none⟩]
  else []

/-- Pass 2 of `find_matches`: one `mention` record per pattern that
matches the combined text; the snippet searches the lyrics for the raw
pattern source string as a literal. -/
def pass2 (lyrics full : Str) (info : CountryInfo) : List MRec :=
  info.patterns.filterMap fun pat =>
    if regexSearchB (parseRegex pat) full then
      some ⟨RecType.mention, extract_snippet lyrics [pat] 80, none⟩
    else none

/-- Pass 3 of `find_matches`: one `language` record per language token of
the country with a standalone-word occurrence in the combined text. -/
def pass3 (lyrics full : Str) (info : CountryInfo) : List MRec :=
  info.languages.filterMap fun lang =>
    if wordSearch lang full then
      some ⟨RecType.language, extract_snippet lyrics [lang] 80, some lang⟩
    else none

/-- Pass 4 of `find_matches`: one `language` record per global hint
mapped to the current country whose token has a standalone-word
occurrence in the combined text. -/
def pass4 (lyrics full : Str) (iso3 : Str) : List MRec :=
  GLOBAL_LANGUAGE_HINTS.filterMap fun kv =>
    if kv.2 = iso3 ∧ wordSearch kv.1 full = true then
      some ⟨RecType.language, extract_snippet lyrics [kv.1] 80, some kv.1⟩
    else none

/-- All records one country accumulates, in the order the source appends
them: plain-term pass, pattern pass, language pass, global-hint pass. -/
def recs_for (lyrics full iso3 : Str) (info : CountryInfo) : List MRec :=
  pass1 lyrics full info ++ pass2 lyrics full info ++
    pass3 lyrics full info ++ pass4 lyrics full iso3

/-- Embedding of `find_matches`: per country of the index, run the four
passes over lyrics plus metadata and keep the country only when it
accumulated at least one record. -/
def find_matches (lyrics meta_text : Str) (countries : CIndex) :
    List (Str × List MRec) :=
  countries.filterMap fun e =>
    let recs := recs_for lyrics (fulltextOf lyrics meta_text) e.1 e.2
    if recs.isEmpty then none else some (e.1, recs)

/-- One flattened output row of `main` (per-song shape; the `sample` CSV
rows share it). -/
structure Row where
  iso3 : Str
  country : Str
  type : RecType
  song : Option Str
  album : Option Str
  year : Option Str
  lyric : Str
  language : Option Str
  source : Option Str
  audio : Option Str
deriving DecidableEq

/-- One `refs` element of the output: the row minus its country key and
display name. -/
structure Ref where
  type : RecType
  song : Option Str
  album : Option Str
  year : Option Str
  lyric : Str
  language : Option Str
  source : Option Str
  audio : Option Str
deriving DecidableEq

/-- One final `CountryReport` object: code, display name, record list. -/
structure CReport where
  iso3 : Str
  country : Str
  refs : List Ref
deriving DecidableEq

/-- Project a row to its `refs` entry, as `main`'s append does. -/
def mkRef (r : Row) : Ref :=
  ⟨r.type, r.song, r.album, r.year, r.lyric, r.language, r.source, r.audio⟩

/-- One step of `main`'s grouping loop: `setdefault` the country entry
(first row fixes code, display name and position), then append the
row's ref. -/
def addRow (acc : List CReport) (r : Row) : List CReport :=
  if acc.any fun e => decide (e.iso3 = r.iso3) then
    acc.map fun e =>
      if e.iso3 = r.iso3 then ⟨e.iso3, e.country, e.refs ++ [mkRef r]⟩ else e
  else acc ++ [⟨r.iso3, r.country, [mkRef r]⟩]

/-- The `by_country` grouping of `main`: fold all rows in order. -/
def collapse_by_country (rows : List Row) : List CReport :=
  rows.foldl addRow []

/-- The Report Assembler output: the grouped entries sorted by country
display name (plain code-point comparison, Python `sorted` with a
string key). -/
def assemble_report (rows : List Row) : List CReport :=
  insertionSortBy (fun a b => strLe a.country b.country) (collapse_by_country rows)

/-- Concatenation of the alias lists attached to key `k` by a pair list,
in list order (used to describe the merge folds). -/
def gatherFor (k : Str) (l : List (Str × List Str)) : List Str :=
  l.foldr (fun p acc => if p.1 = k then p.2 ++ acc else acc) []

theorem reSpecial_backslash : reSpecial '\\' = true := by decide

theorem parseRegex_nil : parseRegex [] = [] := rfl

theorem parseRegex_esc (c : Char) (r : Str) :
    parseRegex ('\\' :: c :: r) =
      (if c = 'b' then RTok.wordB else RTok.lit c) :: parseRegex r := rfl

theorem parseRegex_cons {c : Char} (h : c ≠ '\\') (r : Str) :
    parseRegex (c :: r) = RTok.lit c :: parseRegex r := by
  rw [parseRegex.eq_def]
  simp [h]

/-- Parsing an escaped token yields exactly its characters as literals. -/
theorem parseRegex_pyEscape_append (t rest : Str) :
    parseRegex (pyEscape t ++ rest) = t.map RTok.lit ++ parseRegex rest := by
  induction t with
  | nil => simp [pyEscape]
  | cons c r ih =>
    by_cases hs : reSpecial c = true
    · have hcb : c ≠ 'b' := by
        intro h; rw [h] at hs; exact absurd hs (by decide)
      simp [pyEscape, hs, parseRegex_esc, hcb, ih]
    · have hcb : c ≠ '\\' := by
        intro h; rw [h] at hs; exact absurd reSpecial_backslash hs
      simp [pyEscape, hs, parseRegex_cons hcb, ih]

/-- The compiled word regex is a word boundary, the token's literals and
a word boundary. -/
theorem safe_word_regex_eq (t : Str) :
    safe_word_regex t = RTok.wordB :: (t.map RTok.lit ++ [RTok.wordB]) := by
  unfold safe_word_regex safe_word_regex_src
  rw [parseRegex_esc]
  simp [parseRegex_pyEscape_append, parseRegex_esc, parseRegex_nil]

/-- Running a block of literal tokens consumes the corresponding
characters. -/
theorem rmatchAt_lits_append (text s : Str) (ts : List RTok) :
    ∀ i, rmatchAt text (s.map RTok.lit ++ ts) i =
      (litsMatchAt text s i && rmatchAt text ts (i + s.length)) := by
  induction s with
  | nil => intro i; simp [litsMatchAt]
  | cons c cs ih =>
    intro i
    have harith : i + 1 + cs.length = i + (cs.length + 1) := by omega
    simp only [List.map_cons, List.cons_append, List.append_eq, rmatchAt, litsMatchAt,
      ih (i + 1), Bool.and_assoc, List.length_cons, harith]

/-- The word-boundary search coincides with the direct standalone-word
characterisation. -/
theorem wordSearch_eq_hasDelimitedOcc (t full : Str) :
    wordSearch t full = hasDelimitedOcc t full := by
  have hfun : ∀ i, rmatchAt full (safe_word_regex t) i =
      (litsMatchAt full t i && (boundaryAt full i && boundaryAt full (i + t.length))) := by
    intro i
    rw [safe_word_regex_eq]
    simp only [rmatchAt, rmatchAt_lits_append]
    cases boundaryAt full i <;> cases litsMatchAt full t i <;>
      cases boundaryAt full (i + t.length) <;> simp [rmatchAt]
  unfold wordSearch regexSearchB hasDelimitedOcc
  simp only [hfun]


theorem lstrip_cons_pos_early {c : Char} (hc : pyIsSpace c = true) {r : Str} :
    lstrip (c :: r) = lstrip r := by
  unfold lstrip
  rw [List.dropWhile_cons_of_pos hc]

theorem lstrip_cons_neg_early {c : Char} (hc : pyIsSpace c = false) {r : Str} :
    lstrip (c :: r) = c :: r := by
  unfold lstrip
  rw [List.dropWhile_cons_of_neg (by simp [hc])]

theorem collapseRuns_nil : collapseRuns [] = [] := rfl

theorem collapseRuns_cons_pos_aux :
    ∀ (c : Char), pyIsSpace c = true → ∀ (r : Str),
      collapseRuns (c :: r) = ' ' :: collapseRuns (lstrip r)
  | c, hc, [] => by
    have h1 : collapseRuns [c] = if pyIsSpace c = true then [' '] else [c] := rfl
    rw [h1, if_pos hc]
    rfl
  | c, hc, d :: rest => by
    have h1 : collapseRuns (c :: d :: rest) =
        if pyIsSpace c = true then
          (if pyIsSpace d = true then collapseRuns (d :: rest)
           else ' ' :: collapseRuns (d :: rest))
        else c :: collapseRuns (d :: rest) := rfl
    rw [h1, if_pos hc]
    by_cases hd : pyIsSpace d = true
    · rw [if_pos hd, collapseRuns_cons_pos_aux d hd rest, lstrip_cons_pos_early hd]
    · have hd' : pyIsSpace d = false := by simpa using hd
      rw [if_neg hd, lstrip_cons_neg_early hd']

theorem collapseRuns_cons_pos {c : Char} (hc : pyIsSpace c = true) (r : Str) :
    collapseRuns (c :: r) = ' ' :: collapseRuns (lstrip r) :=
  collapseRuns_cons_pos_aux c hc r

theorem collapseRuns_cons_neg {c : Char} (hc : pyIsSpace c = false) (r : Str) :
    collapseRuns (c :: r) = c :: collapseRuns r := by
  cases r with
  | nil =>
    have h1 : collapseRuns [c] = if pyIsSpace c = true then [' '] else [c] := rfl
    rw [h1, if_neg (by simp [hc])]
    rfl
  | cons d rest =>
    have h1 : collapseRuns (c :: d :: rest) =
        if pyIsSpace c = true then
          (if pyIsSpace d = true then collapseRuns (d :: rest)
           else ' ' :: collapseRuns (d :: rest))
        else c :: collapseRuns (d :: rest) := rfl
    rw [h1, if_neg (by simp [hc])]

theorem rstrip_cons (c : Char) (r : Str) :
    rstrip (c :: r) = match rstrip r with
      | [] => if pyIsSpace c = true then [] else [c]
      | d :: t => c :: d :: t := rfl

theorem rstrip_cons_of_nil {c : Char} {r : Str} (hr : rstrip r = []) :
    rstrip (c :: r) = if pyIsSpace c = true then [] else [c] := by
  rw [rstrip_cons, hr]

theorem rstrip_cons_of_cons {c d : Char} {r t : Str} (hr : rstrip r = d :: t) :
    rstrip (c :: r) = c :: d :: t := by
  rw [rstrip_cons, hr]

theorem lstrip_nil : lstrip [] = [] := rfl

theorem lstrip_cons_pos {c : Char} (hc : pyIsSpace c = true) (r : Str) :
    lstrip (c :: r) = lstrip r := by
  unfold lstrip
  rw [List.dropWhile_cons_of_pos hc]

theorem lstrip_cons_neg {c : Char} (hc : pyIsSpace c = false) (r : Str) :
    lstrip (c :: r) = c :: r := by
  unfold lstrip
  rw [List.dropWhile_cons_of_neg (by simp [hc])]

theorem lstrip_head_false {l : Str} {d : Char} {t : Str} (h : lstrip l = d :: t) :
    pyIsSpace d = false := by
  induction l with
  | nil => exact absurd h (by simp [lstrip_nil])
  | cons a r ih =>
    by_cases ha : pyIsSpace a = true
    · rw [lstrip_cons_pos ha] at h
      exact ih h
    · have ha' : pyIsSpace a = false := by simpa using ha
      rw [lstrip_cons_neg ha'] at h
      cases h
      exact ha'

theorem pyIsSpace_replace (c : Char) :
    pyIsSpace (if c = '\n' then ' ' else c) = pyIsSpace c := by
  by_cases h : c = '\n' <;> simp [h, pyIsSpace]

theorem lstrip_replaceNl (s : Str) : lstrip (replaceNl s) = replaceNl (lstrip s) := by
  unfold lstrip replaceNl
  rw [List.dropWhile_map]
  have hfun : (pyIsSpace ∘ fun c => if c = '\n' then ' ' else c) = pyIsSpace :=
    funext fun c => pyIsSpace_replace c
  rw [hfun]

theorem rstrip_replaceNl (s : Str) : rstrip (replaceNl s) = replaceNl (rstrip s) := by
  induction s with
  | nil => rfl
  | cons c r ih =>
    show rstrip ((if c = '\n' then ' ' else c) :: replaceNl r) = _
    cases hr : rstrip r with
    | nil =>
      have h1 : rstrip (replaceNl r) = [] := by rw [ih, hr]; rfl
      rw [rstrip_cons_of_nil h1, rstrip_cons_of_nil hr, pyIsSpace_replace c]
      by_cases hx : pyIsSpace c = true <;> simp [hx, replaceNl]
    | cons d t =>
      have h1 : rstrip (replaceNl r) = (if d = '\n' then ' ' else d) :: replaceNl t := by
        rw [ih, hr]; rfl
      rw [rstrip_cons_of_cons h1, rstrip_cons_of_cons hr]
      simp [replaceNl]

theorem pyStrip_replaceNl (s : Str) : pyStrip (replaceNl s) = replaceNl (pyStrip s) := by
  unfold pyStrip
  rw [lstrip_replaceNl, rstrip_replaceNl]

theorem rstrip_eq_nil_iff (l : Str) :
    rstrip l = [] ↔ ∀ c ∈ l, pyIsSpace c = true := by
  induction l with
  | nil => simp [rstrip]
  | cons c r ih =>
    cases hr : rstrip r with
    | nil =>
      rw [hr] at ih
      have hall : ∀ x ∈ r, pyIsSpace x = true := ih.mp rfl
      rw [rstrip_cons_of_nil hr]
      by_cases hcp : pyIsSpace c = true
      · simp only [if_pos hcp]
        constructor
        · intro _ x hx
          rcases List.mem_cons.mp hx with rfl | hxr
          · exact hcp
          · exact hall x hxr
        · intro _; trivial
      · simp only [if_neg hcp]
        constructor
        · intro h; exact absurd h (by simp)
        · intro h; exact absurd (h c (List.mem_cons_self c r)) hcp
    | cons d t =>
      rw [rstrip_cons_of_cons hr]
      constructor
      · intro h; exact absurd h (by simp)
      · intro h
        have hnil : rstrip r = [] := ih.mpr fun x hx => h x (List.mem_cons_of_mem _ hx)
        rw [hnil] at hr
        exact absurd hr (by simp)

theorem lstrip_eq_nil_of_all_space {l : Str} (h : ∀ c ∈ l, pyIsSpace c = true) :
    lstrip l = [] := by
  unfold lstrip
  exact List.dropWhile_eq_nil_iff.mpr h

theorem mem_lstrip_of_not {c : Char} :
    ∀ {l : Str}, c ∈ l → pyIsSpace c = false → c ∈ lstrip l
  | a :: t, hm, hc => by
    by_cases ha : pyIsSpace a = true
    · rw [lstrip_cons_pos ha]
      rcases List.mem_cons.mp hm with rfl | ht
      · rw [ha] at hc; exact absurd hc (by simp)
      · exact mem_lstrip_of_not ht hc
    · have ha' : pyIsSpace a = false := by simpa using ha
      rw [lstrip_cons_neg ha']
      exact hm

theorem mem_rstrip_of_not_space {c : Char} :
    ∀ {l : Str}, c ∈ l → pyIsSpace c = false → c ∈ rstrip l
  | a :: r, hm, hc => by
    cases hr : rstrip r with
    | nil =>
      have hall := (rstrip_eq_nil_iff r).mp hr
      rw [rstrip_cons_of_nil hr]
      rcases List.mem_cons.mp hm with rfl | ht
      · simp [hc]
      · rw [hall c ht] at hc
        exact absurd hc (by simp)
    | cons d t =>
      rw [rstrip_cons_of_cons hr]
      rcases List.mem_cons.mp hm with rfl | ht
      · exact List.mem_cons_self _ _
      · have hmem := mem_rstrip_of_not_space ht hc
        rw [hr] at hmem
        exact List.mem_cons_of_mem _ hmem

theorem rstrip_ne_nil_of_mem {x : Char} {l : Str} (hm : x ∈ l)
    (hx : pyIsSpace x = false) : rstrip l ≠ [] := by
  intro h
  have := (rstrip_eq_nil_iff l).mp h x hm
  rw [this] at hx
  exact absurd hx (by simp)

theorem exists_not_space_of_rstrip_ne_nil {l : Str} (h : rstrip l ≠ []) :
    ∃ x ∈ l, pyIsSpace x = false := by
  by_contra hall
  push_neg at hall
  exact h ((rstrip_eq_nil_iff l).mpr fun x hx => by
    have := hall x hx
    cases hpx : pyIsSpace x with
    | false => exact absurd hpx this
    | true => rfl)

theorem lstrip_rstrip_comm (u : Str) : lstrip (rstrip u) = rstrip (lstrip u) := by
  induction u with
  | nil => rfl
  | cons c r ih =>
    by_cases hc : pyIsSpace c = true
    · rw [lstrip_cons_pos hc]
      cases hr : rstrip r with
      | nil =>
        have hall := (rstrip_eq_nil_iff r).mp hr
        rw [rstrip_cons_of_nil hr, if_pos hc, lstrip_eq_nil_of_all_space hall]
        rfl
      | cons d t =>
        rw [rstrip_cons_of_cons hr, lstrip_cons_pos hc, ← hr]
        exact ih
    · have hc' : pyIsSpace c = false := by simpa using hc
      rw [lstrip_cons_neg hc']
      cases hr : rstrip r with
      | nil =>
        rw [rstrip_cons_of_nil hr, if_neg hc]
        exact lstrip_cons_neg hc' []
      | cons d t =>
        rw [rstrip_cons_of_cons hr]
        exact lstrip_cons_neg hc' (d :: t)

theorem collapseRuns_ne_nil {u : Str} (h : u ≠ []) : collapseRuns u ≠ [] := by
  cases u with
  | nil => exact absurd rfl h
  | cons c r =>
    by_cases hc : pyIsSpace c = true
    · rw [collapseRuns_cons_pos hc]; simp
    · rw [collapseRuns_cons_neg (by simpa using hc)]; simp

theorem collapseRuns_all_space :
    ∀ {u : Str}, (∀ c ∈ u, pyIsSpace c = true) → u ≠ [] → collapseRuns u = [' ']
  | [], _, h => absurd rfl h
  | c :: r, hall, _ => by
    have hc : pyIsSpace c = true := hall c (List.mem_cons_self c r)
    rw [collapseRuns_cons_pos hc]
    have hnil : lstrip r = [] :=
      lstrip_eq_nil_of_all_space fun x hx => hall x (List.mem_cons_of_mem _ hx)
    rw [hnil, collapseRuns_nil]

theorem mem_collapseRuns_of_not_space {c : Char} :
    ∀ {u : Str}, c ∈ u → pyIsSpace c = false → c ∈ collapseRuns u
  | a :: r, hm, hc => by
    by_cases ha : pyIsSpace a = true
    · rw [collapseRuns_cons_pos ha]
      rcases List.mem_cons.mp hm with rfl | ht
      · rw [ha] at hc; exact absurd hc (by simp)
      · exact List.mem_cons_of_mem _
          (mem_collapseRuns_of_not_space (mem_lstrip_of_not ht hc) hc)
    · rw [collapseRuns_cons_neg (by simpa using ha)]
      rcases List.mem_cons.mp hm with rfl | ht
      · exact List.mem_cons_self _ _
      · exact List.mem_cons_of_mem _ (mem_collapseRuns_of_not_space ht hc)
termination_by u => u.length
decreasing_by
  · simp only [List.length_cons]
    exact Nat.lt_succ_of_le (List.dropWhile_sublist _).length_le
  · simp only [List.length_cons]
    exact Nat.lt_succ_self _

theorem lstrip_collapseRuns (u : Str) :
    lstrip (collapseRuns u) = collapseRuns (lstrip u) := by
  cases u with
  | nil => simp [collapseRuns_nil, lstrip_nil]
  | cons c r =>
    by_cases hc : pyIsSpace c = true
    · rw [collapseRuns_cons_pos hc, lstrip_cons_pos hc,
        lstrip_cons_pos (by decide : pyIsSpace ' ' = true)]
      cases hd : lstrip r with
      | nil => simp [collapseRuns_nil, lstrip_nil]
      | cons d t =>
        have hdns : pyIsSpace d = false := lstrip_head_false hd
        rw [collapseRuns_cons_neg hdns, lstrip_cons_neg hdns]
    · have hc' : pyIsSpace c = false := by simpa using hc
      rw [lstrip_cons_neg hc', collapseRuns_cons_neg hc']
      exact lstrip_cons_neg hc' (collapseRuns r)

theorem rstrip_collapseRuns : ∀ n (u : Str), u.length ≤ n →
    rstrip (collapseRuns u) = collapseRuns (rstrip u) := by
  intro n
  induction n with
  | zero =>
    intro u hu
    have hnil : u = [] := List.eq_nil_of_length_eq_zero (Nat.le_zero.mp hu)
    subst hnil
    have h0 : rstrip ([] : Str) = [] := rfl
    rw [collapseRuns_nil, h0, collapseRuns_nil]
  | succ n ih =>
    intro u hu
    cases u with
    | nil =>
      have h0 : rstrip ([] : Str) = [] := rfl
      rw [collapseRuns_nil, h0, collapseRuns_nil]
    | cons c r =>
      have hrlen : r.length ≤ n := by
        simp only [List.length_cons] at hu; omega
      by_cases hc : pyIsSpace c = true
      · rw [collapseRuns_cons_pos hc]
        cases hr : rstrip r with
        | nil =>
          have hall := (rstrip_eq_nil_iff r).mp hr
          have hdnil : lstrip r = [] := lstrip_eq_nil_of_all_space hall
          rw [hdnil, collapseRuns_nil]
          have h2 : rstrip (c :: r) = [] := by
            rw [rstrip_cons_of_nil hr, if_pos hc]
          rw [h2, collapseRuns_nil]
          decide
        | cons d t =>
          rw [rstrip_cons_of_cons hr, collapseRuns_cons_pos hc]
          have hr2 : lstrip (d :: t) = rstrip (lstrip r) := by
            rw [← hr]
            exact lstrip_rstrip_comm r
          rw [hr2]
          have hlen2 : (lstrip r).length ≤ n :=
            le_trans (List.dropWhile_sublist _).length_le hrlen
          have hih := ih (lstrip r) hlen2
          have hne : rstrip (lstrip r) ≠ [] := by
            have hexists : ∃ x ∈ r, pyIsSpace x = false :=
              exists_not_space_of_rstrip_ne_nil (by rw [hr]; simp)
            obtain ⟨x, hx, hxs⟩ := hexists
            exact rstrip_ne_nil_of_mem (mem_lstrip_of_not hx hxs) hxs
          have hcne : collapseRuns (rstrip (lstrip r)) ≠ [] := collapseRuns_ne_nil hne
          cases hX : collapseRuns (rstrip (lstrip r)) with
          | nil => exact absurd hX hcne
          | cons e s =>
            have hXr : rstrip (collapseRuns (lstrip r)) = e :: s := hih.trans hX
            rw [rstrip_cons_of_cons hXr]
      · have hc' : pyIsSpace c = false := by simpa using hc
        rw [collapseRuns_cons_neg hc']
        cases hr : rstrip r with
        | nil =>
          have hall := (rstrip_eq_nil_iff r).mp hr
          have h2 : rstrip (c :: r) = [c] := by
            rw [rstrip_cons_of_nil hr, if_neg hc]
          rw [h2]
          have hrc : collapseRuns [c] = [c] := by
            rw [collapseRuns_cons_neg hc', collapseRuns_nil]
          rw [hrc]
          by_cases hrn : r = []
          · subst hrn
            have h0 : rstrip ([] : Str) = [] := rfl
            rw [collapseRuns_nil, rstrip_cons_of_nil h0, if_neg hc]
          · have hsp : collapseRuns r = [' '] := collapseRuns_all_space hall hrn
            rw [hsp]
            have h3 : rstrip [' '] = [] := by decide
            rw [rstrip_cons_of_nil h3, if_neg hc]
        | cons d t =>
          rw [rstrip_cons_of_cons hr, collapseRuns_cons_neg hc', ← hr]
          have hih := ih r hrlen
          have hne : rstrip r ≠ [] := by rw [hr]; simp
          have hcne : collapseRuns (rstrip r) ≠ [] := collapseRuns_ne_nil hne
          cases hX : collapseRuns (rstrip r) with
          | nil => exact absurd hX hcne
          | cons e s =>
            have hXr : rstrip (collapseRuns r) = e :: s := hih.trans hX
            rw [rstrip_cons_of_cons hXr]

/-- The source's normalisation order (strip, replace newlines, collapse
runs) agrees with the specification's order (replace newlines, collapse
runs, trim edges). -/
theorem normalize_comm (s : Str) :
    collapseRuns (replaceNl (pyStrip s)) = pyStrip (collapseRuns (replaceNl s)) := by
  rw [← pyStrip_replaceNl]
  generalize replaceNl s = v
  unfold pyStrip
  calc collapseRuns (rstrip (lstrip v))
      = rstrip (collapseRuns (lstrip v)) :=
        (rstrip_collapseRuns (lstrip v).length (lstrip v) le_rfl).symm
    _ = rstrip (lstrip (collapseRuns v)) := by rw [lstrip_collapseRuns]

theorem take_min_length (l : Str) (e : Nat) : l.take (min l.length e) = l.take e := by
  rcases Nat.le_total l.length e with h | h
  · rw [min_eq_left h, List.take_of_length_le h, List.take_length]
  · rw [min_eq_right h]

theorem slice_eq (text : Str) (s e : Nat) :
    (text.take (min text.length e)).drop s = (text.drop s).take (e - s) := by
  rw [take_min_length, List.drop_take e s text]

/-- The source's snippet function coincides with the specification's
formulation for the window the program uses. -/
theorem extract_snippet_eq_spec (text : Str) :
    ∀ terms, extract_snippet text terms 80 = extract_snippet_spec text terms := by
  intro terms
  induction terms with
  | nil => rfl
  | cons t rest ih =>
    unfold extract_snippet extract_snippet_spec
    cases h : pyFind (lowerStr text) (lowerStr t) with
    | none => exact ih
    | some idx =>
      dsimp only
      rw [slice_eq text (idx - 80) (idx + t.length + 80), normalize_comm]

theorem extract_snippet_of_no_occurrence (text : Str) :
    ∀ {terms : List Str},
      (∀ t ∈ terms, pyFind (lowerStr text) (lowerStr t) = none) →
      extract_snippet text terms 80 = []
  | [], _ => rfl
  | t :: rest, h => by
    unfold extract_snippet
    rw [h t (List.mem_cons_self t rest)]
    exact extract_snippet_of_no_occurrence text fun x hx => h x (List.mem_cons_of_mem _ hx)

theorem alookup_mem {β : Type} : ∀ {d : List (Str × β)} {k : Str} {v : β},
    alookup d k = some v → (k, v) ∈ d
  | (k', v') :: rest, k, v, h => by
    unfold alookup at h
    by_cases hk : k' = k
    · rw [if_pos hk] at h
      cases h
      subst hk
      exact List.mem_cons_self _ _
    · rw [if_neg hk] at h
      exact List.mem_cons_of_mem _ (alookup_mem h)

theorem keysNodup_cons {β : Type} {k : Str} {v : β} {rest : List (Str × β)}
    (h : keysNodup ((k, v) :: rest)) :
    k ∉ rest.map Prod.fst ∧ keysNodup rest := by
  unfold keysNodup at *
  rw [List.map_cons, List.nodup_cons] at h
  exact h

theorem mem_alookup {β : Type} : ∀ {d : List (Str × β)} {k : Str} {v : β},
    keysNodup d → (k, v) ∈ d → alookup d k = some v
  | (k', v') :: rest, k, v, hnd, hm => by
    unfold alookup
    rcases List.mem_cons.mp hm with heq | ht
    · cases heq
      rw [if_pos rfl]
    · by_cases hk : k' = k
      · exfalso
        subst hk
        exact (keysNodup_cons hnd).1 (List.mem_map.mpr ⟨(k', v), ht, rfl⟩)
      · rw [if_neg hk]
        exact mem_alookup (keysNodup_cons hnd).2 ht

theorem mem_keysNodup_unique {β : Type} : ∀ {d : List (Str × β)} {k : Str} {v v' : β},
    keysNodup d → (k, v) ∈ d → (k, v') ∈ d → v = v' := by
  intro d k v v' hnd hm hm'
  have h1 := mem_alookup hnd hm
  have h2 := mem_alookup hnd hm'
  rw [h1] at h2
  exact Option.some.inj h2

theorem find_matches_cons (lyrics meta k' : Str) (info : CountryInfo) (rest : CIndex) :
    find_matches lyrics meta ((k', info) :: rest) =
      (if (recs_for lyrics (fulltextOf lyrics meta) k' info).isEmpty then
        find_matches lyrics meta rest
      else
        (k', recs_for lyrics (fulltextOf lyrics meta) k' info) ::
          find_matches lyrics meta rest) := by
  unfold find_matches
  rw [List.filterMap_cons]
  by_cases h : (recs_for lyrics (fulltextOf lyrics meta) k' info).isEmpty = true
  · simp only [h, if_true, if_pos]
  · simp only [h, if_false, if_neg, Bool.not_eq_true]

theorem alookup_find_matches_of_not_mem (lyrics meta : Str) :
    ∀ (cs : CIndex) (k : Str), k ∉ cs.map Prod.fst →
      alookup (find_matches lyrics meta cs) k = none
  | [], _, _ => rfl
  | (k', info) :: rest, k, hk => by
    have hk' : k' ≠ k := by
      intro h
      exact hk (by rw [List.map_cons, h]; exact List.mem_cons_self _ _)
    have hkrest : k ∉ rest.map Prod.fst := by
      intro h
      exact hk (by rw [List.map_cons]; exact List.mem_cons_of_mem _ h)
    rw [find_matches_cons]
    by_cases h : (recs_for lyrics (fulltextOf lyrics meta) k' info).isEmpty = true
    · rw [if_pos h]
      exact alookup_find_matches_of_not_mem lyrics meta rest k hkrest
    · rw [if_neg h]
      unfold alookup
      rw [if_neg hk']
      exact alookup_find_matches_of_not_mem lyrics meta rest k hkrest

/-- Lookup of a country in the `find_matches` result: its record list
when non-empty, absent otherwise. -/
theorem alookup_find_matches {lyrics meta : Str} :
    ∀ {cs : CIndex} {k : Str} {info : CountryInfo}, keysNodup cs → (k, info) ∈ cs →
      alookup (find_matches lyrics meta cs) k =
        (if (recs_for lyrics (fulltextOf lyrics meta) k info).isEmpty then none
         else some (recs_for lyrics (fulltextOf lyrics meta) k info))
  | (k', info') :: rest, k, info, hnd, hm => by
    rcases List.mem_cons.mp hm with heq | ht
    · injection heq with h1 h2
      subst h1
      subst h2
      rw [find_matches_cons]
      by_cases h : (recs_for lyrics (fulltextOf lyrics meta) k info).isEmpty = true
      · rw [if_pos h, if_pos h]
        exact alookup_find_matches_of_not_mem lyrics meta rest k (keysNodup_cons hnd).1
      · rw [if_neg h, if_neg h]
        unfold alookup
        rw [if_pos rfl]
    · have hk : k' ≠ k := by
        intro h
        subst h
        exact (keysNodup_cons hnd).1 (List.mem_map.mpr ⟨(k', info), ht, rfl⟩)
      rw [find_matches_cons]
      by_cases h : (recs_for lyrics (fulltextOf lyrics meta) k' info').isEmpty = true
      · rw [if_pos h]
        exact alookup_find_matches (keysNodup_cons hnd).2 ht
      · rw [if_neg h]
        unfold alookup
        rw [if_neg hk]
        exact alookup_find_matches (keysNodup_cons hnd).2 ht

theorem find_matches_entries_ne_nil (lyrics meta : Str) (cs : CIndex) :
    ∀ e ∈ find_matches lyrics meta cs, e.2 ≠ [] := by
  intro e he
  unfold find_matches at he
  obtain ⟨a, _, hf⟩ := List.mem_filterMap.mp he
  by_cases h : (recs_for lyrics (fulltextOf lyrics meta) a.1 a.2).isEmpty = true
  · simp only [h, if_pos] at hf
    exact absurd hf (by simp)
  · simp only [h, if_neg, Bool.not_eq_true] at hf
    cases hf
    simp only [ne_eq]
    intro hnil
    rw [hnil] at h
    exact h rfl

theorem filterMap_ite {α β : Type} (p : α → Prop) [DecidablePred p] (f : α → β)
    (l : List α) :
    l.filterMap (fun x => if p x then some (f x) else none) =
      (l.filter fun x => decide (p x)).map f := by
  induction l with
  | nil => rfl
  | cons a t ih =>
    rw [List.filterMap_cons, List.filter_cons]
    by_cases h : p a
    · simp [h, ih]
    · simp [h, ih]

theorem orderedInsertBy_perm {α : Type} (le : α → α → Bool) (a : α) :
    ∀ l : List α, List.Perm (orderedInsertBy le a l) (a :: l)
  | [] => List.Perm.refl _
  | b :: l => by
    unfold orderedInsertBy
    by_cases h : le a b = true
    · rw [if_pos h]
    · rw [if_neg h]
      exact ((orderedInsertBy_perm le a l).cons b).trans (List.Perm.swap a b l)

theorem insertionSortBy_perm {α : Type} (le : α → α → Bool) :
    ∀ l : List α, List.Perm (insertionSortBy le l) l
  | [] => List.Perm.refl _
  | b :: l =>
    (orderedInsertBy_perm le b _).trans ((insertionSortBy_perm le l).cons b)

theorem sorted_orderedInsertBy {α : Type} {le : α → α → Bool}
    (htot : ∀ a b, le a b = true ∨ le b a = true)
    (htrans : ∀ a b c, le a b = true → le b c = true → le a c = true)
    (a : α) :
    ∀ {l : List α}, List.Sorted (fun x y => le x y = true) l →
      List.Sorted (fun x y => le x y = true) (orderedInsertBy le a l)
  | [], _ => List.sorted_singleton a
  | b :: t, hs => by
    have hs1 := (List.sorted_cons.mp hs).1
    have hs2 := (List.sorted_cons.mp hs).2
    unfold orderedInsertBy
    by_cases h : le a b = true
    · rw [if_pos h]
      refine List.sorted_cons.mpr ⟨?_, hs⟩
      intro x hx
      rcases List.mem_cons.mp hx with rfl | hxt
      · exact h
      · exact htrans a b x h (hs1 x hxt)
    · rw [if_neg h]
      have hba : le b a = true := (htot a b).resolve_left h
      refine List.sorted_cons.mpr ⟨?_, sorted_orderedInsertBy htot htrans a hs2⟩
      intro x hx
      rcases List.mem_cons.mp ((orderedInsertBy_perm le a t).mem_iff.mp hx) with rfl | hxt
      · exact hba
      · exact hs1 x hxt

theorem sorted_insertionSortBy {α : Type} {le : α → α → Bool}
    (htot : ∀ a b, le a b = true ∨ le b a = true)
    (htrans : ∀ a b c, le a b = true → le b c = true → le a c = true) :
    ∀ l : List α, List.Sorted (fun x y => le x y = true) (insertionSortBy le l)
  | [] => List.sorted_nil
  | b :: l =>
    sorted_orderedInsertBy htot htrans b (sorted_insertionSortBy htot htrans l)

theorem strLe_total : ∀ a b : Str, strLe a b = true ∨ strLe b a = true
  | [], _ => Or.inl rfl
  | _ :: _, [] => Or.inr rfl
  | a :: as, b :: bs => by
    unfold strLe
    rcases lt_trichotomy a b with h | h | h
    · left
      rw [if_pos h]
    · subst h
      simp only [if_neg (lt_irrefl a)]
      exact strLe_total as bs
    · right
      rw [if_pos h]

theorem strLe_trans : ∀ a b c : Str, strLe a b = true → strLe b c = true →
    strLe a c = true
  | [], _, _, _, _ => rfl
  | _ :: _, [], _, h, _ => by simp [strLe] at h
  | _ :: _, _ :: _, [], _, h => by simp [strLe] at h
  | a :: as, b :: bs, c :: cs, h1, h2 => by
    unfold strLe at h1 h2 ⊢
    rcases lt_trichotomy a b with hab | hab | hab
    · rcases lt_trichotomy b c with hbc | hbc | hbc
      · rw [if_pos (lt_trans hab hbc)]
      · subst hbc
        rw [if_pos hab]
      · rw [if_neg (not_lt_of_gt hbc), if_pos hbc] at h2
        exact absurd h2 (by simp)
    · subst hab
      rcases lt_trichotomy a c with hac | hac | hac
      · rw [if_pos hac]
      · subst hac
        simp only [if_neg (lt_irrefl a)] at h1 h2 ⊢
        exact strLe_trans as bs cs h1 h2
      · rw [if_neg (not_lt_of_gt hac), if_pos hac] at h2
        exact absurd h2 (by simp)
    · rw [if_neg (not_lt_of_gt hab), if_pos hab] at h1
      exact absurd h1 (by simp)

theorem dedupSortStr_nodup (xs : List Str) : (dedupSortStr xs).Nodup :=
  (insertionSortBy_perm strLe xs.dedup).nodup_iff.mpr (List.nodup_dedup xs)

theorem dedupSortStr_sorted (xs : List Str) :
    List.Sorted (fun a b => strLe a b = true) (dedupSortStr xs) :=
  sorted_insertionSortBy strLe_total strLe_trans xs.dedup

theorem mem_dedupSortStr {xs : List Str} {x : Str} :
    x ∈ dedupSortStr xs ↔ x ∈ xs :=
  (insertionSortBy_perm strLe xs.dedup).mem_iff.trans (List.mem_dedup)

theorem lowerChar_eq_self_or_mem (c : Char) :
    lowerChar c = c ∨
      lowerChar c ∈ ['a', 'b', 'c', 'd', 'e', 'f', 'g', 'h', 'i', 'j', 'k', 'l', 'm',
        'n', 'o', 'p', 'q', 'r', 's', 't', 'u', 'v', 'w', 'x', 'y', 'z'] := by
  unfold lowerChar
  split
  case _ => right; decide
  case _ => right; decide
  case _ => right; decide
  case _ => right; decide
  case _ => right; decide
  case _ => right; decide
  case _ => right; decide
  case _ => right; decide
  case _ => right; decide
  case _ => right; decide
  case _ => right; decide
  case _ => right; decide
  case _ => right; decide
  case _ => right; decide
  case _ => right; decide
  case _ => right; decide
  case _ => right; decide
  case _ => right; decide
  case _ => right; decide
  case _ => right; decide
  case _ => right; decide
  case _ => right; decide
  case _ => right; decide
  case _ => right; decide
  case _ => right; decide
  case _ => right; decide
  case _ => left; rfl

theorem lowerChar_of_lower {d : Char}
    (h : d ∈ ['a', 'b', 'c', 'd', 'e', 'f', 'g', 'h', 'i', 'j', 'k', 'l', 'm',
      'n', 'o', 'p', 'q', 'r', 's', 't', 'u', 'v', 'w', 'x', 'y', 'z']) :
    lowerChar d = d := by
  fin_cases h <;> rfl

theorem lowerChar_idem (c : Char) : lowerChar (lowerChar c) = lowerChar c := by
  rcases lowerChar_eq_self_or_mem c with h | h
  · rw [h]
    exact h
  · exact lowerChar_of_lower h

theorem lowerStr_idem (s : Str) : lowerStr (lowerStr s) = lowerStr s := by
  induction s with
  | nil => rfl
  | cons c r ih =>
    show lowerChar (lowerChar c) :: lowerStr (lowerStr r) = lowerChar c :: lowerStr r
    rw [lowerChar_idem, ih]

theorem alookup_pyInsert {β : Type} (k : Str) (v : β) :
    ∀ (d : List (Str × β)) (k' : Str),
      alookup (pyInsert d k v) k' = if k = k' then some v else alookup d k'
  | [], k' => by
    unfold pyInsert alookup
    by_cases h : k = k' <;> simp [h, alookup]
  | (k0, v0) :: rest, k' => by
    unfold pyInsert
    by_cases h0 : k0 = k
    · rw [if_pos h0]
      unfold alookup
      by_cases h1 : k = k'
      · rw [if_pos h1, if_pos h1]
      · rw [if_neg h1, if_neg h1]
        subst h0
        unfold alookup
        rw [if_neg h1]
    · rw [if_neg h0]
      unfold alookup
      by_cases h1 : k0 = k'
      · rw [if_pos h1, if_pos h1]
        rw [if_neg fun h => h0 (h1.trans h.symm)]
      · rw [if_neg h1, if_neg h1]
        exact alookup_pyInsert k v rest k'

theorem alookup_pyUpdate {β : Type} (k : Str) (f : β → β) :
    ∀ (d : List (Str × β)) (k' : Str),
      alookup (pyUpdate d k f) k' =
        if k = k' then (alookup d k').map f else alookup d k'
  | [], k' => by
    unfold pyUpdate alookup
    by_cases h : k = k' <;> simp [h]
  | (k0, v0) :: rest, k' => by
    unfold pyUpdate
    by_cases h0 : k0 = k
    · rw [if_pos h0]
      unfold alookup
      by_cases h1 : k0 = k'
      · rw [if_pos h1, if_pos h1, if_pos (h0 ▸ h1)]
        rfl
      · rw [if_neg h1, if_neg h1]
        rw [if_neg fun h => h1 (h0.trans h)]
    · rw [if_neg h0]
      unfold alookup
      by_cases h1 : k0 = k'
      · rw [if_pos h1, if_pos h1]
        rw [if_neg fun h => h0 (h1.trans h.symm)]
      · rw [if_neg h1, if_neg h1]
        exact alookup_pyUpdate k f rest k'

theorem alookup_foldl_pyUpdate {β γ : Type} (g : γ → β → β) :
    ∀ (l : List (Str × γ)) (d : List (Str × β)) (k : Str),
      alookup (l.foldl (fun cs p => pyUpdate cs p.1 (g p.2)) d) k =
        (alookup d k).map fun v =>
          (l.filter fun p => decide (p.1 = k)).foldl (fun acc p => g p.2 acc) v
  | [], d, k => by
    show alookup d k = (alookup d k).map fun v => v
    cases alookup d k <;> rfl
  | (i, x) :: rest, d, k => by
    rw [List.foldl_cons, alookup_foldl_pyUpdate g rest, alookup_pyUpdate]
    by_cases h : i = k
    · rw [if_pos h, List.filter_cons_of_pos (by simp [h])]
      cases alookup d k <;> simp
    · rw [if_neg h, List.filter_cons_of_neg (by simp [h])]

theorem alookup_map_value {β γ : Type} (f : β → γ) :
    ∀ (d : List (Str × β)) (k : Str),
      alookup (d.map fun e => (e.1, f e.2)) k = (alookup d k).map f
  | [], _ => rfl
  | (k0, v0) :: rest, k => by
    simp only [List.map_cons]
    unfold alookup
    by_cases h : k0 = k
    · rw [if_pos h, if_pos h]
      rfl
    · rw [if_neg h, if_neg h]
      exact alookup_map_value f rest k

theorem mem_pyInsert {β : Type} {e : Str × β} {k : Str} {v : β} :
    ∀ {d : List (Str × β)}, e ∈ pyInsert d k v → e ∈ d ∨ e = (k, v)
  | [], h => by
    unfold pyInsert at h
    right
    simpa using h
  | (k0, v0) :: rest, h => by
    unfold pyInsert at h
    by_cases h0 : k0 = k
    · rw [if_pos h0] at h
      rcases List.mem_cons.mp h with rfl | ht
      · right; rfl
      · left; exact List.mem_cons_of_mem _ ht
    · rw [if_neg h0] at h
      rcases List.mem_cons.mp h with rfl | ht
      · left; exact List.mem_cons_self _ _
      · rcases mem_pyInsert ht with hd | he
        · left; exact List.mem_cons_of_mem _ hd
        · right; exact he

theorem seed_entries_empty (catalog : List PycCountry) :
    ∀ e ∈ seed_countries_from_pycountry catalog,
      e.2.aliases = [] ∧ e.2.languages = [] ∧ e.2.cities = [] ∧ e.2.patterns = [] := by
  unfold seed_countries_from_pycountry
  suffices h : ∀ (base : CIndex),
      (∀ e ∈ base, e.2.aliases = [] ∧ e.2.languages = [] ∧ e.2.cities = [] ∧
        e.2.patterns = []) →
      ∀ e ∈ catalog.foldl seedStep base,
        e.2.aliases = [] ∧ e.2.languages = [] ∧ e.2.cities = [] ∧ e.2.patterns = [] by
    exact h [] (by simp)
  induction catalog with
  | nil => intro base hbase e he; exact hbase e he
  | cons c cs ih =>
    intro base hbase e he
    rw [List.foldl_cons] at he
    refine ih _ ?_ e he
    intro e' he'
    unfold seedStep at he'
    split at he'
    · split at he'
      · exact hbase e' he'
      · rcases mem_pyInsert he' with hd | heq
        · exact hbase e' hd
        · rw [heq]
          exact ⟨rfl, rfl, rfl, rfl⟩
    · exact hbase e' he'

theorem addRow_of_present {acc : List CReport} {r : Row}
    (h : (acc.any fun e => decide (e.iso3 = r.iso3)) = true) :
    addRow acc r = acc.map fun e =>
      if e.iso3 = r.iso3 then ⟨e.iso3, e.country, e.refs ++ [mkRef r]⟩ else e := by
  unfold addRow
  rw [if_pos h]

theorem addRow_of_absent {acc : List CReport} {r : Row}
    (h : ¬(acc.any fun e => decide (e.iso3 = r.iso3)) = true) :
    addRow acc r = acc ++ [⟨r.iso3, r.country, [mkRef r]⟩] := by
  unfold addRow
  rw [if_neg h]

theorem collapse_append_singleton (rs : List Row) (r : Row) :
    collapse_by_country (rs ++ [r]) = addRow (collapse_by_country rs) r := by
  unfold collapse_by_country
  rw [List.foldl_append, List.foldl_cons, List.foldl_nil]

theorem addRow_present_keys (acc : List CReport) (r : Row) :
    ((acc.map fun e =>
      if e.iso3 = r.iso3 then
        (⟨e.iso3, e.country, e.refs ++ [mkRef r]⟩ : CReport) else e).map
        fun e => e.iso3) = acc.map fun e => e.iso3 := by
  rw [List.map_map]
  apply List.map_congr_left
  intro e _
  by_cases hk : e.iso3 = r.iso3
  · simp [hk]
  · simp [hk]

/-- The grouping invariant of `main`'s `by_country` fold: every entry's
`refs` list is exactly the rows of its country in input order, the
country keys are pairwise distinct, and every processed row's country
has an entry. -/
theorem collapse_invariant (rows : List Row) :
    (∀ e ∈ collapse_by_country rows,
      e.refs = (rows.filter fun r => decide (r.iso3 = e.iso3)).map mkRef) ∧
    ((collapse_by_country rows).map (fun e => e.iso3)).Nodup ∧
    (∀ r ∈ rows, r.iso3 ∈ (collapse_by_country rows).map fun e => e.iso3) := by
  induction rows using List.reverseRecOn with
  | nil =>
    refine ⟨?_, ?_, ?_⟩
    · intro e he
      simp [collapse_by_country] at he
    · simp [collapse_by_country]
    · intro r hr
      simp at hr
  | append_singleton rs r ih =>
    obtain ⟨iha, ihb, ihc⟩ := ih
    rw [collapse_append_singleton]
    by_cases hp : ((collapse_by_country rs).any fun e => decide (e.iso3 = r.iso3)) = true
    · rw [addRow_of_present hp]
      refine ⟨?_, ?_, ?_⟩
      · intro e' he'
        obtain ⟨e, he, hedef⟩ := List.mem_map.mp he'
        rw [List.filter_append]
        by_cases hk : e.iso3 = r.iso3
        · rw [if_pos hk] at hedef
          have hiso : e'.iso3 = e.iso3 := by rw [← hedef]
          have hrefs : e'.refs = e.refs ++ [mkRef r] := by rw [← hedef]
          rw [hrefs, iha e he, hiso]
          have hfr : ([r].filter fun x => decide (x.iso3 = e.iso3)) = [r] := by
            simp [hk.symm]
          rw [hfr, List.map_append]
          rfl
        · rw [if_neg hk] at hedef
          rw [← hedef]
          have hfr : ([r].filter fun x => decide (x.iso3 = e.iso3)) = [] := by
            simp
            intro hr
            exact hk hr.symm
          rw [hfr, List.append_nil]
          exact iha e he
      · rw [addRow_present_keys]
        exact ihb
      · intro r' hr'
        rw [addRow_present_keys]
        rcases List.mem_append.mp hr' with hin | hsing
        · exact ihc r' hin
        · rw [List.mem_singleton] at hsing
          subst hsing
          obtain ⟨e, he, hdec⟩ := List.any_eq_true.mp hp
          have hkey : e.iso3 = r'.iso3 := of_decide_eq_true hdec
          rw [← hkey]
          exact List.mem_map.mpr ⟨e, he, rfl⟩
    · rw [addRow_of_absent hp]
      have hnotin : r.iso3 ∉ (collapse_by_country rs).map fun e => e.iso3 := by
        intro hmem
        obtain ⟨e, he, hiso⟩ := List.mem_map.mp hmem
        exact hp (List.any_eq_true.mpr ⟨e, he, decide_eq_true hiso⟩)
      have hnorow : ∀ r' ∈ rs, ¬ r'.iso3 = r.iso3 := by
        intro r' hr' heq
        exact hnotin (heq ▸ ihc r' hr')
      refine ⟨?_, ?_, ?_⟩
      · intro e' he'
        rcases List.mem_append.mp he' with hin | hsing
        · rw [List.filter_append]
          have hfr : ([r].filter fun x => decide (x.iso3 = e'.iso3)) = [] := by
            simp
            intro heq
            apply hnotin
            rw [heq]
            exact List.mem_map.mpr ⟨e', hin, rfl⟩
          rw [hfr, List.append_nil]
          exact iha e' hin
        · rw [List.mem_singleton] at hsing
          subst hsing
          rw [List.filter_append]
          have hfrs : (rs.filter fun x => decide (x.iso3 = r.iso3)) = [] := by
            rw [List.filter_eq_nil_iff]
            intro a ha
            simp
            exact hnorow a ha
          have hfr : ([r].filter fun x => decide (x.iso3 = r.iso3)) = [r] := by simp
          rw [hfrs, hfr]
          rfl
      · rw [List.map_append, List.nodup_append]
        refine ⟨ihb, by simp, ?_⟩
        intro x hx hx2
        simp at hx2
        rw [hx2] at hx
        exact hnotin hx
      · intro r' hr'
        rw [List.map_append]
        rcases List.mem_append.mp hr' with hin | hsing
        · exact List.mem_append.mpr (Or.inl (ihc r' hin))
        · rw [List.mem_singleton] at hsing
          subst hsing
          exact List.mem_append.mpr (Or.inr (by simp))

/-- C1: for every lyrics text and metadata text whose combined text
(lyrics, newline, metadata) contains a country's exact non-empty display
name as a standalone word — case-insensitive and word-boundary delimited
— the mapping returned by `find_matches` has an entry for that country's
code containing at least one record of type `mention`. -/
theorem mia_c1 (lyrics meta : Str) (idx : CIndex) (code : Str) (info : CountryInfo)
    (hnd : keysNodup idx) (hmem : (code, info) ∈ idx) (hname : info.name ≠ [])
    (hocc : hasDelimitedOcc info.name (fulltextOf lyrics meta) = true) :
    ∃ recs, alookup (find_matches lyrics meta idx) code = some recs ∧
      ∃ r ∈ recs, r.type = RecType.mention := by
  have hsearch : wordSearch info.name (fulltextOf lyrics meta) = true := by
    rw [wordSearch_eq_hasDelimitedOcc]
    exact hocc
  have hguard : ((plain_terms info).any fun t =>
      !t.isEmpty && wordSearch t (fulltextOf lyrics meta)) = true := by
    refine List.any_eq_true.mpr ⟨info.name, List.mem_cons_self _ _, ?_⟩
    have hne : info.name.isEmpty = false := by
      cases hn : info.name
      · exact absurd hn hname
      · rfl
    rw [hsearch, hne]
    rfl
  have hp1 : pass1 lyrics (fulltextOf lyrics meta) info =
      [⟨RecType.mention, extract_snippet lyrics (plain_terms info) 80, none⟩] := by
    unfold pass1
    rw [if_pos hguard]
  have hmemrec :
      (⟨RecType.mention, extract_snippet lyrics (plain_terms info) 80, none⟩ : MRec) ∈
        recs_for lyrics (fulltextOf lyrics meta) code info := by
    unfold recs_for
    rw [hp1]
    simp
  have hnenil : recs_for lyrics (fulltextOf lyrics meta) code info ≠ [] :=
    List.ne_nil_of_mem hmemrec
  have hie : (recs_for lyrics (fulltextOf lyrics meta) code info).isEmpty = false := by
    cases hh : recs_for lyrics (fulltextOf lyrics meta) code info
    · exact absurd hh hnenil
    · rfl
  refine ⟨recs_for lyrics (fulltextOf lyrics meta) code info, ?_, ?_⟩
  · rw [alookup_find_matches hnd hmem, hie]
    simp
  · exact ⟨_, hmemrec, rfl⟩

theorem mia_c1_witness :
    ∃ recs, alookup (find_matches ("we love France".toList) []
        [("FRA".toList, ⟨"France".toList, [], [], [], []⟩)]) ("FRA".toList) =
      some recs ∧ ∃ r ∈ recs, r.type = RecType.mention :=
  mia_c1 ("we love France".toList) [] _ ("FRA".toList)
    ⟨"France".toList, [], [], [], []⟩ (by decide) (by decide) (by decide) (by decide)

/-- C2: word-boundary discipline.  If a plain token has no word-boundary
delimited case-insensitive occurrence in the combined text — in
particular when it occurs only inside longer words — then the
word-boundary search fails, the plain-term pass emits nothing when that
holds of all its candidate terms, and neither language pass emits a
record carrying that token. -/
theorem mia_c2 :
    (∀ t full : Str, hasDelimitedOcc t full = false → wordSearch t full = false) ∧
    (∀ (lyrics meta : Str) (info : CountryInfo),
      (∀ t ∈ plain_terms info, hasDelimitedOcc t (fulltextOf lyrics meta) = false) →
      pass1 lyrics (fulltextOf lyrics meta) info = []) ∧
    (∀ (lyrics meta : Str) (info : CountryInfo) (code t : Str),
      hasDelimitedOcc t (fulltextOf lyrics meta) = false →
      (∀ r ∈ pass3 lyrics (fulltextOf lyrics meta) info, r.language ≠ some t) ∧
      (∀ r ∈ pass4 lyrics (fulltextOf lyrics meta) code, r.language ≠ some t)) := by
  refine ⟨?_, ?_, ?_⟩
  · intro t full h
    rw [wordSearch_eq_hasDelimitedOcc]
    exact h
  · intro lyrics meta info h
    unfold pass1
    rw [if_neg]
    intro hany
    obtain ⟨t, ht, hb⟩ := List.any_eq_true.mp hany
    have hw : wordSearch t (fulltextOf lyrics meta) = true := by
      have hb2 := hb
      simp only [Bool.and_eq_true] at hb2
      exact hb2.2
    rw [wordSearch_eq_hasDelimitedOcc, h t ht] at hw
    exact absurd hw (by simp)
  · intro lyrics meta info code t h
    constructor
    · intro r hr hlang
      obtain ⟨lang, hlmem, hlf⟩ := List.mem_filterMap.mp hr
      by_cases hw : wordSearch lang (fulltextOf lyrics meta) = true
      · rw [if_pos hw] at hlf
        injection hlf with hrec
        rw [← hrec] at hlang
        injection hlang with hlt
        rw [hlt] at hw
        rw [wordSearch_eq_hasDelimitedOcc, h] at hw
        exact absurd hw (by simp)
      · rw [if_neg hw] at hlf
        exact absurd hlf (by simp)
    · intro r hr hlang
      obtain ⟨kv, hkmem, hkf⟩ := List.mem_filterMap.mp hr
      by_cases hw : kv.2 = code ∧ wordSearch kv.1 (fulltextOf lyrics meta) = true
      · rw [if_pos hw] at hkf
        injection hkf with hrec
        rw [← hrec] at hlang
        injection hlang with hlt
        have hw2 := hw.2
        rw [hlt] at hw2
        rw [wordSearch_eq_hasDelimitedOcc, h] at hw2
        exact absurd hw2 (by simp)
      · rw [if_neg hw] at hkf
        exact absurd hkf (by simp)

theorem mia_c2_witness :
    wordSearch ("chi".toList) (fulltextOf ("chicago is cold".toList) []) = false ∧
    pass1 ("chicago is cold".toList) (fulltextOf ("chicago is cold".toList) [])
      ⟨"Chile".toList, [], [], ["chi".toList], []⟩ = [] :=
  ⟨mia_c2.1 ("chi".toList) (fulltextOf ("chicago is cold".toList) []) (by decide),
   mia_c2.2.1 ("chicago is cold".toList) []
     ⟨"Chile".toList, [], [], ["chi".toList], []⟩ (by decide)⟩

/-- C3: `extract_snippet` with its window of 80 scans the terms in the
given order, picks the first with a case-insensitive substring
occurrence in the lyrics, returns the window of at most 80 characters
each side with newlines replaced, whitespace runs collapsed and edges
trimmed (the specification's formulation), and returns the empty string
when no term occurs in the lyrics. -/
theorem mia_c3 :
    (∀ (text : Str) (terms : List Str),
      extract_snippet text terms 80 = extract_snippet_spec text terms) ∧
    (∀ (text : Str) (terms : List Str),
      (∀ t ∈ terms, pyFind (lowerStr text) (lowerStr t) = none) →
      extract_snippet text terms 80 = []) :=
  ⟨extract_snippet_eq_spec,
   fun text _ h => extract_snippet_of_no_occurrence text h⟩

theorem mia_c3_witness :
    extract_snippet ("la la land".toList) [("zzz".toList)] 80 = [] :=
  mia_c3.2 ("la la land".toList) [("zzz".toList)] (by decide)

/-- C4: on lyrics `we flew to ATL last night` (empty metadata) and a
country entry whose patterns hold the word-boundary ATL pattern,
`find_matches` emits exactly one `mention` record via the pattern pass,
and because the snippet search uses the raw pattern source string as a
literal, that record's lyric snippet is the empty string. -/
theorem mia_c4 :
    find_matches ("we flew to ATL last night".toList) []
      [("USA".toList,
        ⟨"United States".toList, [], [], [], ["\\bATL\\b".toList]⟩)] =
      [("USA".toList, [⟨RecType.mention, [], none⟩])] := by decide

/-- C5: every entry of the built country index has deduplicated,
all-lowercase, sorted `aliases`, `languages` and `cities` lists, and a
deduplicated sorted `patterns` list with case preserved. -/
theorem mia_c5 (catalog : List PycCountry) (code : Str) (info : CountryInfo)
    (h : alookup (build_country_index catalog) code = some info) :
    (info.aliases.Nodup ∧ (∀ s ∈ info.aliases, lowerStr s = s) ∧
      List.Sorted (fun a b => strLe a b = true) info.aliases) ∧
    (info.languages.Nodup ∧ (∀ s ∈ info.languages, lowerStr s = s) ∧
      List.Sorted (fun a b => strLe a b = true) info.languages) ∧
    (info.cities.Nodup ∧ (∀ s ∈ info.cities, lowerStr s = s) ∧
      List.Sorted (fun a b => strLe a b = true) info.cities) ∧
    (info.patterns.Nodup ∧
      List.Sorted (fun a b => strLe a b = true) info.patterns) := by
  unfold build_country_index at h
  rw [alookup_map_value] at h
  cases hm : alookup
      (merge_enrichments (merge_aliases (seed_countries_from_pycountry catalog)))
      code with
  | none =>
    rw [hm] at h
    exact absurd h (by simp)
  | some v =>
    rw [hm, Option.map_some'] at h
    have hinfo : info = normalizeEntry v := (Option.some.inj h).symm
    subst hinfo
    have hlow : ∀ xs : List Str, ∀ s ∈ dedupSortStr (xs.map lowerStr), lowerStr s = s := by
      intro xs s hs
      obtain ⟨y, _, hy⟩ := List.mem_map.mp (mem_dedupSortStr.mp hs)
      rw [← hy, lowerStr_idem]
    refine ⟨⟨dedupSortStr_nodup _, hlow _, dedupSortStr_sorted _⟩,
      ⟨dedupSortStr_nodup _, hlow _, dedupSortStr_sorted _⟩,
      ⟨dedupSortStr_nodup _, hlow _, dedupSortStr_sorted _⟩,
      ?_, ?_⟩
    · exact (insertionSortBy_perm strLe v.patterns.dedup).nodup_iff.mpr
        (List.nodup_dedup v.patterns)
    · exact sorted_insertionSortBy strLe_total strLe_trans v.patterns.dedup

theorem mia_c5_witness :
    ∃ info, alookup (build_country_index
        [⟨some ("FRA".toList), "France".toList, none⟩]) ("FRA".toList) =
      some info ∧ info.aliases.Nodup ∧ info.cities.Nodup :=
  ⟨⟨"France".toList, [], ["french".toList], ["marseille".toList, "paris".toList], []⟩,
   by decide,
   (mia_c5 [⟨some ("FRA".toList), "France".toList, none⟩] ("FRA".toList)
     ⟨"France".toList, [], ["french".toList], ["marseille".toList, "paris".toList], []⟩
     (by decide)).1.1,
   (mia_c5 [⟨some ("FRA".toList), "France".toList, none⟩] ("FRA".toList)
     ⟨"France".toList, [], ["french".toList], ["marseille".toList, "paris".toList], []⟩
     (by decide)).2.2.1.1⟩

/-- C6: every country appearing in the `find_matches` result has a
non-empty record list, and a country of the index whose four passes
produce no record does not appear among the result's keys at all. -/
theorem mia_c6 (lyrics meta : Str) (idx : CIndex) :
    (∀ e ∈ find_matches lyrics meta idx, e.2 ≠ []) ∧
    (∀ code info, keysNodup idx → (code, info) ∈ idx →
      recs_for lyrics (fulltextOf lyrics meta) code info = [] →
      code ∉ (find_matches lyrics meta idx).map Prod.fst) := by
  constructor
  · exact find_matches_entries_ne_nil lyrics meta idx
  · intro code info hnd hmem hrecs hcode
    obtain ⟨e, he, hfst⟩ := List.mem_map.mp hcode
    unfold find_matches at he
    obtain ⟨a, ha, hfa⟩ := List.mem_filterMap.mp he
    by_cases hie : (recs_for lyrics (fulltextOf lyrics meta) a.1 a.2).isEmpty = true
    · simp only [hie, if_pos] at hfa
      exact absurd hfa (by simp)
    · simp only [hie, if_neg, Bool.not_eq_true] at hfa
      have heq : (a.1, recs_for lyrics (fulltextOf lyrics meta) a.1 a.2) = e :=
        Option.some.inj hfa
      rw [← heq] at hfst
      have hacode : a.1 = code := hfst
      have hamem : (code, a.2) ∈ idx := by
        rw [← hacode]
        exact ha
      have hsame : a.2 = info := mem_keysNodup_unique hnd hamem hmem
      rw [hacode, hsame, hrecs] at hie
      exact hie rfl

theorem mia_c6_witness :
    ("FRA".toList) ∉ (find_matches ("hello".toList) []
      [("FRA".toList, ⟨"France".toList, [], [], [], []⟩)]).map Prod.fst :=
  (mia_c6 ("hello".toList) [] [("FRA".toList, ⟨"France".toList, [], [], [], []⟩)]).2
    ("FRA".toList) ⟨"France".toList, [], [], [], []⟩ (by decide) (by decide) (by decide)

/-- C7: a global language hint `(key, C)` whose token occurs as a
standalone word in the combined text makes `find_matches` emit a
`language` record carrying that token for `C` (when `C` is in the
index), independently of the per-country language pass; concretely, for
lyrics containing `tamil` the real built IND entry receives two
`language` records for `tamil` — one from IND's own language list and
one from the hint table, not deduplicated. -/
theorem mia_c7 :
    (∀ (idx : CIndex) (lyrics meta key code : Str) (info : CountryInfo),
      keysNodup idx → (code, info) ∈ idx →
      (key, code) ∈ GLOBAL_LANGUAGE_HINTS →
      wordSearch key (fulltextOf lyrics meta) = true →
      ∃ recs, alookup (find_matches lyrics meta idx) code = some recs ∧
        ∃ r ∈ recs, r.type = RecType.language ∧ r.language = some key) ∧
    (find_matches ("singing in tamil tonight".toList) []
        (build_country_index [⟨some ("IND".toList), "India".toList, none⟩]) =
      [("IND".toList,
        [⟨RecType.language, "singing in tamil tonight".toList, some ("tamil".toList)⟩,
         ⟨RecType.language, "singing in tamil tonight".toList,
           some ("tamil".toList)⟩])]) := by
  constructor
  · intro idx lyrics meta key code info hnd hmem hkey hsearch
    have hmem4 :
        (⟨RecType.language, extract_snippet lyrics [key] 80, some key⟩ : MRec) ∈
          pass4 lyrics (fulltextOf lyrics meta) code := by
      unfold pass4
      refine List.mem_filterMap.mpr ⟨(key, code), hkey, ?_⟩
      rw [if_pos ⟨rfl, hsearch⟩]
    have hmemrec :
        (⟨RecType.language, extract_snippet lyrics [key] 80, some key⟩ : MRec) ∈
          recs_for lyrics (fulltextOf lyrics meta) code info := by
      unfold recs_for
      exact List.mem_append.mpr (Or.inr hmem4)
    have hnenil : recs_for lyrics (fulltextOf lyrics meta) code info ≠ [] :=
      List.ne_nil_of_mem hmemrec
    have hie : (recs_for lyrics (fulltextOf lyrics meta) code info).isEmpty = false := by
      cases hh : recs_for lyrics (fulltextOf lyrics meta) code info
      · exact absurd hh hnenil
      · rfl
    refine ⟨recs_for lyrics (fulltextOf lyrics meta) code info, ?_, ?_⟩
    · rw [alookup_find_matches hnd hmem, hie]
      simp
    · exact ⟨_, hmemrec, rfl, rfl⟩
  · decide

theorem mia_c7_witness :
    ∃ recs, alookup (find_matches ("singing in tamil tonight".toList) []
        [("IND".toList, ⟨"India".toList, [], ["tamil".toList], [], []⟩)])
        ("IND".toList) = some recs ∧
      ∃ r ∈ recs, r.type = RecType.language ∧ r.language = some ("tamil".toList) :=
  mia_c7.1 [("IND".toList, ⟨"India".toList, [], ["tamil".toList], [], []⟩)]
    ("singing in tamil tonight".toList) [] ("tamil".toList) ("IND".toList)
    ⟨"India".toList, [], ["tamil".toList], [], []⟩
    (by decide) (by decide) (by decide) (by decide)

/-- C8: the Report Assembler groups rows by country code preserving the
insertion order of each country's mentions — each output entry's `refs`
list is exactly the input rows of its country, in input order — and the
final report list is sorted by country display name under plain
code-point comparison. -/
theorem mia_c8 (rows : List Row) :
    (∀ e ∈ assemble_report rows,
      e.refs = (rows.filter fun r => decide (r.iso3 = e.iso3)).map mkRef) ∧
    List.Sorted (fun a b => strLe a.country b.country = true)
      (assemble_report rows) := by
  constructor
  · intro e he
    unfold assemble_report at he
    have hmem : e ∈ collapse_by_country rows :=
      (insertionSortBy_perm (fun a b => strLe a.country b.country)
        (collapse_by_country rows)).mem_iff.mp he
    exact (collapse_invariant rows).1 e hmem
  · unfold assemble_report
    exact sorted_insertionSortBy
      (fun a b => strLe_total a.country b.country)
      (fun a b c => strLe_trans a.country b.country c.country)
      (collapse_by_country rows)

theorem mia_c8_witness :
    (⟨"IND".toList, "India".toList,
      [⟨RecType.mention, none, none, none, [], none, none, none⟩]⟩ : CReport).refs =
      (([⟨"IND".toList, "India".toList, RecType.mention, none, none, none, [],
          none, none, none⟩] : List Row).filter fun r =>
        decide (r.iso3 =
          (⟨"IND".toList, "India".toList,
            [⟨RecType.mention, none, none, none, [], none, none, none⟩]⟩ :
              CReport).iso3)).map mkRef :=
  (mia_c8 [⟨"IND".toList, "India".toList, RecType.mention, none, none, none, [],
    none, none, none⟩]).1
    ⟨"IND".toList, "India".toList,
      [⟨RecType.mention, none, none, none, [], none, none, none⟩]⟩ (by decide)

/-- C9: the `EXTRA_ALIASES` dict literal binds `SWZ` twice and the later
binding wins — the table's effective `SWZ` entry is
`["Eswatini", "Swaziland"]` — and consequently any built index that
contains `SWZ` gives it exactly the aliases
`["eswatini", "swaziland"]`. -/
theorem mia_c9 :
    (alookup EXTRA_ALIASES ("SWZ".toList) =
      some ["Eswatini".toList, "Swaziland".toList]) ∧
    (∀ (catalog : List PycCountry) (info : CountryInfo),
      alookup (build_country_index catalog) ("SWZ".toList) = some info →
      info.aliases = ["eswatini".toList, "swaziland".toList]) := by
  constructor
  · decide
  · intro catalog info h
    unfold build_country_index at h
    rw [alookup_map_value] at h
    unfold merge_enrichments at h
    rw [alookup_foldl_pyUpdate applyEnrich] at h
    unfold merge_aliases at h
    rw [alookup_foldl_pyUpdate aliasExtend] at h
    cases hs : alookup (seed_countries_from_pycountry catalog) ("SWZ".toList) with
    | none =>
      rw [hs] at h
      exact absurd h (by simp)
    | some v =>
      rw [hs] at h
      have hf1 : (EXTRA_ALIASES.filter fun p => decide (p.1 = "SWZ".toList)) =
          [("SWZ".toList, ["Eswatini".toList, "Swaziland".toList])] := by decide
      have hf2 : (EXTRA_ENRICHMENTS.filter fun p => decide (p.1 = "SWZ".toList)) =
          [] := by decide
      rw [hf1, hf2] at h
      simp only [Option.map_some', List.foldl_cons, List.foldl_nil] at h
      have hinfo : info = normalizeEntry
          (aliasExtend ["Eswatini".toList, "Swaziland".toList] v) :=
        (Option.some.inj h).symm
      rw [hinfo]
      have hempty := seed_entries_empty catalog _ (alookup_mem hs)
      show dedupSortStr ((v.aliases ++
        ["Eswatini".toList, "Swaziland".toList]).map lowerStr) =
        ["eswatini".toList, "swaziland".toList]
      rw [hempty.1]
      decide

theorem mia_c9_witness :
    ∃ info, alookup (build_country_index
        [⟨some ("SWZ".toList), "Eswatini".toList, none⟩]) ("SWZ".toList) =
      some info ∧ info.aliases = ["eswatini".toList, "swaziland".toList] :=
  ⟨⟨"Eswatini".toList, ["eswatini".toList, "swaziland".toList], [], [], []⟩,
   by decide,
   mia_c9.2 [⟨some ("SWZ".toList), "Eswatini".toList, none⟩]
     ⟨"Eswatini".toList, ["eswatini".toList, "swaziland".toList], [], [], []⟩
     (by decide)⟩

/-- C10: the record list of a country in the `find_matches` result is
ordered by pass — an optional single plain-term `mention` record first
(one at most, and exactly one as soon as any plain term matches, however
many match), then the pattern-pass records in pattern-list order, then
the per-country language records in language-list order, then the
global-hint records in hint-table order. -/
theorem mia_c10 (lyrics meta : Str) (idx : CIndex) (code : Str) (info : CountryInfo)
    (recs : List MRec) (hnd : keysNodup idx) (hmem : (code, info) ∈ idx)
    (h : alookup (find_matches lyrics meta idx) code = some recs) :
    ∃ p1,
      recs = p1 ++
        ((info.patterns.filter fun pat =>
            regexSearchB (parseRegex pat) (fulltextOf lyrics meta)).map fun pat =>
          (⟨RecType.mention, extract_snippet lyrics [pat] 80, none⟩ : MRec)) ++
        ((info.languages.filter fun lang =>
            wordSearch lang (fulltextOf lyrics meta)).map fun lang =>
          (⟨RecType.language, extract_snippet lyrics [lang] 80, some lang⟩ : MRec)) ++
        ((GLOBAL_LANGUAGE_HINTS.filter fun kv =>
            decide (kv.2 = code ∧ wordSearch kv.1 (fulltextOf lyrics meta) = true)).map
          fun kv =>
          (⟨RecType.language, extract_snippet lyrics [kv.1] 80, some kv.1⟩ : MRec)) ∧
      p1.length ≤ 1 ∧
      (∀ r ∈ p1, r.type = RecType.mention ∧ r.language = none) ∧
      ((∃ t ∈ plain_terms info,
          (!t.isEmpty && wordSearch t (fulltextOf lyrics meta)) = true) →
        p1.length = 1) := by
  rw [alookup_find_matches hnd hmem] at h
  by_cases hie : (recs_for lyrics (fulltextOf lyrics meta) code info).isEmpty = true
  · rw [if_pos hie] at h
    exact absurd h (by simp)
  · rw [if_neg hie] at h
    have hrecs : recs = recs_for lyrics (fulltextOf lyrics meta) code info :=
      (Option.some.inj h).symm
    refine ⟨pass1 lyrics (fulltextOf lyrics meta) info, ?_, ?_, ?_, ?_⟩
    · rw [hrecs]
      unfold recs_for
      have hp2 : pass2 lyrics (fulltextOf lyrics meta) info =
          (info.patterns.filter fun pat =>
            regexSearchB (parseRegex pat) (fulltextOf lyrics meta)).map fun pat =>
            (⟨RecType.mention, extract_snippet lyrics [pat] 80, none⟩ : MRec) := by
        unfold pass2
        rw [filterMap_ite
          (fun pat => regexSearchB (parseRegex pat) (fulltextOf lyrics meta) = true)]
        simp only [Bool.decide_coe]
      have hp3 : pass3 lyrics (fulltextOf lyrics meta) info =
          (info.languages.filter fun lang =>
            wordSearch lang (fulltextOf lyrics meta)).map fun lang =>
            (⟨RecType.language, extract_snippet lyrics [lang] 80, some lang⟩ : MRec) := by
        unfold pass3
        rw [filterMap_ite
          (fun lang => wordSearch lang (fulltextOf lyrics meta) = true)]
        simp only [Bool.decide_coe]
      have hp4 : pass4 lyrics (fulltextOf lyrics meta) code =
          (GLOBAL_LANGUAGE_HINTS.filter fun kv =>
            decide (kv.2 = code ∧
              wordSearch kv.1 (fulltextOf lyrics meta) = true)).map fun kv =>
            (⟨RecType.language, extract_snippet lyrics [kv.1] 80, some kv.1⟩ : MRec) := by
        unfold pass4
        rw [filterMap_ite
          (fun kv : Str × Str => kv.2 = code ∧
            wordSearch kv.1 (fulltextOf lyrics meta) = true)]
      rw [hp2, hp3, hp4]
    · unfold pass1
      by_cases hg : ((plain_terms info).any fun t =>
          !t.isEmpty && wordSearch t (fulltextOf lyrics meta)) = true
      · rw [if_pos hg]
        exact Nat.le_refl 1
      · rw [if_neg hg]
        exact Nat.zero_le 1
    · intro r hr
      unfold pass1 at hr
      by_cases hg : ((plain_terms info).any fun t =>
          !t.isEmpty && wordSearch t (fulltextOf lyrics meta)) = true
      · rw [if_pos hg] at hr
        rw [List.mem_singleton] at hr
        rw [hr]
        exact ⟨rfl, rfl⟩
      · rw [if_neg hg] at hr
        exact absurd hr (by simp)
    · intro hex
      obtain ⟨t, ht, hb⟩ := hex
      unfold pass1
      rw [if_pos (List.any_eq_true.mpr ⟨t, ht, hb⟩)]
      rfl

theorem mia_c10_witness :
    ∃ p1,
      ([⟨RecType.mention, "we love France".toList, none⟩] : List MRec) = p1 ++
        (((⟨"France".toList, [], [], [], []⟩ : CountryInfo).patterns.filter fun pat =>
            regexSearchB (parseRegex pat)
              (fulltextOf ("we love France".toList) [])).map fun pat =>
          (⟨RecType.mention,
            extract_snippet ("we love France".toList) [pat] 80, none⟩ : MRec)) ++
        (((⟨"France".toList, [], [], [], []⟩ : CountryInfo).languages.filter fun lang =>
            wordSearch lang (fulltextOf ("we love France".toList) [])).map fun lang =>
          (⟨RecType.language,
            extract_snippet ("we love France".toList) [lang] 80, some lang⟩ : MRec)) ++
        ((GLOBAL_LANGUAGE_HINTS.filter fun kv =>
            decide (kv.2 = "FRA".toList ∧
              wordSearch kv.1 (fulltextOf ("we love France".toList) []) = true)).map
          fun kv =>
          (⟨RecType.language,
            extract_snippet ("we love France".toList) [kv.1] 80, some kv.1⟩ : MRec)) ∧
      p1.length ≤ 1 ∧
      (∀ r ∈ p1, r.type = RecType.mention ∧ r.language = none) ∧
      ((∃ t ∈ plain_terms (⟨"France".toList, [], [], [], []⟩ : CountryInfo),
          (!t.isEmpty &&
            wordSearch t (fulltextOf ("we love France".toList) [])) = true) →
        p1.length = 1) :=
  mia_c10 ("we love France".toList) []
    [("FRA".toList, ⟨"France".toList, [], [], [], []⟩)] ("FRA".toList)
    ⟨"France".toList, [], [], [], []⟩
    [⟨RecType.mention, "we love France".toList, none⟩]
    (by decide) (by decide) (by decide)

end MiaScraper
